import Mathlib

/-!
Shallow embedding of `src/main.rs` of the `db_search` repository: a CLI tool
that reads candidate address strings from a text file, checks them in batches
against a SQLite table `addresses(address)`, and exits with a code reflecting
whether any matched.

Modelling choices:
* Text (file contents, lines, addresses) is modelled as `List Char`, so that
  every definition is kernel-computable; `Addr` abbreviates `List Char`.
  Rust's `str::trim` / `char::is_whitespace` are modelled with Lean's
  `Char.isWhitespace` (ASCII whitespace; the claims do not involve exotic
  Unicode whitespace).
* The SQLite store is a `List Addr`: the rows of the `addresses` table in
  table-iteration order.  The query
  `SELECT address FROM addresses WHERE address IN (batch)` returns the store
  rows whose value occurs in the batch, in store order — `List.filter`.
* `BufRead::lines` is modelled by `rustLines`: split at newline characters,
  strip a carriage return that immediately preceded a newline, no line for
  the empty rest after a terminating newline.
* `check_addresses`' fallible phases are modelled by total functions on the
  already-available data; the `Result` at the top level is an `Except`, and
  `mainExitCode` is the exit-code translation performed by `main`.
-/

/-- An address string. -/
abbrev Addr : Type := List Char

/-- `const DEFAULT_DB_PATH: &str` (main.rs line 7). -/
def DEFAULT_DB_PATH : String := "btc_addresses.db"

/-- `const DEFAULT_TXT_PATH: &str` (main.rs line 8). -/
def DEFAULT_TXT_PATH : String := "addressonly.txt"

/-- `const BATCH_SIZE: usize = 1000` (main.rs line 9). -/
def BATCH_SIZE : Nat := 1000

/-- Strip one trailing carriage return, as `BufRead::lines` does to a line
that ended in `\r\n`. -/
def dropCR (l : List Char) : Addr :=
  if l.getLast? = some '\r' then l.dropLast else l

/-- Worker for `rustLines`: `cur` holds the characters of the current line in
reverse.  At a newline the current line is emitted with a preceding carriage
return stripped; a final line not terminated by a newline is emitted as-is
when non-empty (`BufRead::lines` strips `\r` only before a `\n`). -/
def rustLinesGo : List Char → List Char → List Addr
  | cur, [] => if cur.isEmpty then [] else [cur.reverse]
  | cur, c :: cs =>
      if c = '\n' then dropCR cur.reverse :: rustLinesGo [] cs
      else rustLinesGo (c :: cur) cs

/-- The sequence of lines produced by `BufRead::lines` on the file contents
(main.rs line 64). -/
def rustLines (text : List Char) : List Addr :=
  rustLinesGo [] text

/-- Rust's `str::trim`: drop whitespace from both ends (main.rs line 65). -/
def trimChars (l : List Char) : Addr :=
  ((l.dropWhile Char.isWhitespace).reverse.dropWhile Char.isWhitespace).reverse

/-- The candidate-reading loop of `check_addresses` (main.rs lines 63–69):
trim each line, push it onto the accumulator when non-empty. -/
def loaderLoop : List Addr → List Addr → List Addr
  | [], acc => acc
  | l :: ls, acc =>
      let address := trimChars l
      if address.isEmpty then loaderLoop ls acc
      else loaderLoop ls (acc ++ [address])

/-- The Candidate Loader: the list `addresses` that main.rs lines 60–69
build from the text file. -/
def loadCandidates (text : List Char) : List Addr :=
  loaderLoop (rustLines text) []

/-- `check_batch` (main.rs lines 86–111): the rows of the store whose address
occurs among the batch's candidates, in store order. -/
def check_batch (store batch : List Addr) : List Addr :=
  store.filter (fun a => decide (a ∈ batch))

/-- Fuel-indexed worker for `chunksOf`; each step consumes at least one list
element, so fuel `l.length` always suffices. -/
def chunksOfFuel (n : Nat) : Nat → List α → List (List α)
  | 0, _ => []
  | _ + 1, [] => []
  | fuel + 1, x :: xs => (x :: xs.take (n - 1)) :: chunksOfFuel n fuel (xs.drop (n - 1))

/-- Splitting a list into consecutive chunks of size `n` (`slice::chunks`,
main.rs line 78).  For `n = 0` Rust panics; this model is only used with
`n = BATCH_SIZE`. -/
def chunksOf (n : Nat) (l : List α) : List (List α) :=
  chunksOfFuel n l.length l

/-- The batching phase of `check_addresses` (main.rs lines 71–83) applied to
an already-loaded candidate list: early return on no candidates, otherwise
the concatenation of the per-chunk `check_batch` results. -/
def check_addresses_core (store addresses : List Addr) : List Addr :=
  if addresses.isEmpty then []
  else ((chunksOf BATCH_SIZE addresses).map (check_batch store)).flatten

/-- `check_addresses` (main.rs lines 37–84) on a store and the text contents
of the candidate file. -/
def check_addresses (store : List Addr) (text : List Char) : List Addr :=
  check_addresses_core store (loadCandidates text)

/-- The exit-code translation performed by `main` (main.rs lines 17–34):
1 on success with matches, 0 on success without, 2 on any error. -/
def mainExitCode (r : Except String (List Addr)) : Nat :=
  match r with
  | Except.ok found => if found.isEmpty then 0 else 1
  | Except.error _ => 2

/-- `args.get(1)` with default (main.rs line 14); `args` is the full argument
vector, program name included. -/
def dbPathOf (args : List String) : String :=
  (args[1]?).getD DEFAULT_DB_PATH

/-- `args.get(2)` with default (main.rs line 15). -/
def txtPathOf (args : List String) : String :=
  (args[2]?).getD DEFAULT_TXT_PATH

/-- The whole run as a function of the argument vector, in an environment
mapping a store path to store rows and a file path to file contents: the
match list and the success exit code (main.rs lines 11–35). -/
def runOutcome (stores : String → List Addr) (files : String → List Char)
    (args : List String) : List Addr × Nat :=
  let found := check_addresses (stores (dbPathOf args)) (files (txtPathOf args))
  (found, mainExitCode (Except.ok found))

/-- Observable events of one run of `check_addresses`, in program order. -/
inductive Event where
  | openConn
  | busyTimeout
  | pragmas
  | openFile
  | readLines
  | query (batch : List Addr)
deriving DecidableEq

/-- The event trace of `check_addresses` in source order: connection opened
(line 39), busy timeout set (line 45), pragmas executed (lines 48–57), file
opened (line 60), lines read (lines 63–69), then one membership query per
chunk (lines 78–81) — none when the candidate list is empty (lines 71–73). -/
def runTrace (store : List Addr) (text : List Char) : List Event :=
  let addresses := loadCandidates text
  Event.openConn :: Event.busyTimeout :: Event.pragmas ::
    Event.openFile :: Event.readLines ::
    (if addresses.isEmpty then []
     else (chunksOf BATCH_SIZE addresses).map Event.query)

/-- Store-connection activity: opening, tuning, or querying the store. -/
def connEvent : Event → Bool
  | Event.openConn => true
  | Event.busyTimeout => true
  | Event.pragmas => true
  | Event.query _ => true
  | _ => false

/-- Candidate-file activity: opening the file or reading its lines. -/
def fileEvent : Event → Bool
  | Event.openFile => true
  | Event.readLines => true
  | _ => false

/-- A membership query against the store. -/
def isQueryEvent : Event → Bool
  | Event.query _ => true
  | _ => false

/- ### Basic lemmas about the embedding -/

theorem loaderLoop_eq (ls acc : List Addr) :
    loaderLoop ls acc
      = acc ++ (ls.map trimChars).filter (fun a => !a.isEmpty) := by
  induction ls generalizing acc with
  | nil => simp [loaderLoop]
  | cons l ls ih =>
      simp only [loaderLoop, List.map_cons, List.filter_cons]
      by_cases h : (trimChars l).isEmpty
      · simp [h, ih]
      · simp [h, ih]

theorem loadCandidates_eq (text : List Char) :
    loadCandidates text
      = ((rustLines text).map trimChars).filter (fun a => !a.isEmpty) := by
  simp [loadCandidates, loaderLoop_eq]

theorem chunksOfFuel_of_le (n : Nat) :
    ∀ f₁ f₂ (l : List α), l.length ≤ f₁ → l.length ≤ f₂ →
      chunksOfFuel n f₁ l = chunksOfFuel n f₂ l := by
  intro f₁
  induction f₁ with
  | zero =>
      intro f₂ l h₁ _
      have hl : l = [] := List.length_eq_zero.mp (Nat.le_zero.mp h₁)
      subst hl
      cases f₂ <;> rfl
  | succ f ih =>
      intro f₂ l h₁ h₂
      cases l with
      | nil => cases f₂ <;> rfl
      | cons x xs =>
          cases f₂ with
          | zero => exact absurd h₂ (by simp)
          | succ f' =>
              simp only [chunksOfFuel, List.cons.injEq, true_and]
              apply ih
              · simp only [List.length_drop]
                simp only [List.length_cons] at h₁
                omega
              · simp only [List.length_drop]
                simp only [List.length_cons] at h₂
                omega

theorem chunksOf_nil (n : Nat) : chunksOf n ([] : List α) = [] := rfl

theorem chunksOf_cons (n : Nat) (x : α) (xs : List α) :
    chunksOf n (x :: xs)
      = (x :: xs.take (n - 1)) :: chunksOf n (xs.drop (n - 1)) := by
  simp only [chunksOf, List.length_cons, chunksOfFuel, List.cons.injEq, true_and]
  apply chunksOfFuel_of_le
  · simp only [List.length_drop]; omega
  · exact Nat.le_refl _

theorem chunksOf_ind (n : Nat) (motive : List α → Prop) (h0 : motive [])
    (h1 : ∀ x xs, motive (xs.drop (n - 1)) → motive (x :: xs)) :
    ∀ l, motive l := by
  have H : ∀ k (l : List α), l.length ≤ k → motive l := by
    intro k
    induction k with
    | zero =>
        intro l h
        have hl : l = [] := List.length_eq_zero.mp (Nat.le_zero.mp h)
        subst hl
        exact h0
    | succ k ih =>
        intro l h
        cases l with
        | nil => exact h0
        | cons x xs =>
            apply h1
            apply ih
            simp only [List.length_drop]
            simp only [List.length_cons] at h
            omega
  exact fun l => H l.length l (Nat.le_refl _)

theorem chunksOf_join (n : Nat) (l : List α) :
    (chunksOf n l).flatten = l := by
  induction l using chunksOf_ind n with
  | h0 => rfl
  | h1 x xs ih =>
      rw [chunksOf_cons]
      simp only [List.flatten_cons, ih, List.cons_append]
      rw [List.take_append_drop]

theorem mem_chunksOf_of_mem {n : Nat} {l : List α} {a : α} (h : a ∈ l) :
    ∃ c ∈ chunksOf n l, a ∈ c := by
  have := chunksOf_join n l
  rw [← this] at h
  rcases List.mem_flatten.mp h with ⟨c, hc, hac⟩
  exact ⟨c, hc, hac⟩

theorem subset_of_mem_chunksOf {n : Nat} {l c : List α} (hc : c ∈ chunksOf n l) :
    ∀ a ∈ c, a ∈ l := by
  intro a ha
  rw [← chunksOf_join n l]
  exact List.mem_flatten.mpr ⟨c, hc, ha⟩

theorem chunksOf_eq_nil_iff {n : Nat} {l : List α} :
    chunksOf n l = [] ↔ l = [] := by
  cases l with
  | nil => simp [chunksOf_nil]
  | cons x xs => rw [chunksOf_cons]; simp

theorem chunksOf_length_le {n : Nat} (hn : 0 < n) {l : List α} :
    ∀ c ∈ chunksOf n l, c.length ≤ n := by
  induction l using chunksOf_ind n with
  | h0 => intro c hc; rw [chunksOf_nil] at hc; cases hc
  | h1 x xs ih =>
      intro c hc
      rw [chunksOf_cons] at hc
      rcases List.mem_cons.mp hc with rfl | hc'
      · simp only [List.length_cons, List.length_take]
        have := Nat.min_le_left (n - 1) xs.length
        omega
      · exact ih c hc'

theorem chunksOf_dropLast_length {n : Nat} (hn : 0 < n) {l : List α} :
    ∀ c ∈ (chunksOf n l).dropLast, c.length = n := by
  induction l using chunksOf_ind n with
  | h0 => intro c hc; rw [chunksOf_nil] at hc; cases hc
  | h1 x xs ih =>
      intro c hc
      rw [chunksOf_cons] at hc
      by_cases hrest : chunksOf n (xs.drop (n - 1)) = []
      · rw [hrest] at hc
        simp at hc
      · obtain ⟨r, rs, hR⟩ := List.exists_cons_of_ne_nil hrest
        rw [hR, List.dropLast_cons₂] at hc
        rcases List.mem_cons.mp hc with rfl | hc'
        · have hxs : xs.drop (n - 1) ≠ [] := by
            intro h0
            rw [h0, chunksOf_nil] at hR
            cases hR
          have hpos := List.length_pos.mpr hxs
          rw [List.length_drop] at hpos
          simp only [List.length_cons, List.length_take]
          have : min (n - 1) xs.length = n - 1 := Nat.min_eq_left (by omega)
          omega
        · apply ih
          rw [hR]
          exact hc'

theorem count_eq_one_of_nodup_mem {α : Type u_1} [BEq α] [LawfulBEq α]
    {l : List α} {k : α} (hnd : l.Nodup) (hk : k ∈ l) : l.count k = 1 := by
  induction l with
  | nil => cases hk
  | cons x xs ih =>
      rw [List.count_cons]
      rcases List.mem_cons.mp hk with rfl | hk'
      · rw [List.count_eq_zero.mpr (List.nodup_cons.mp hnd).1]
        simp
      · rw [ih (List.nodup_cons.mp hnd).2 hk']
        have hxk : (x == k) = false := by
          rw [beq_eq_false_iff_ne]
          rintro rfl
          exact (List.nodup_cons.mp hnd).1 hk'
        rw [hxk]
        simp

theorem mem_check_batch {store batch : List Addr} {a : Addr} :
    a ∈ check_batch store batch ↔ a ∈ store ∧ a ∈ batch := by
  simp [check_batch]

theorem mem_check_addresses_core {store cs : List Addr} {a : Addr} :
    a ∈ check_addresses_core store cs ↔ a ∈ store ∧ a ∈ cs := by
  unfold check_addresses_core
  by_cases h : cs.isEmpty
  · simp [h, List.isEmpty_iff.mp h]
  · simp only [h, if_neg, Bool.false_eq_true, not_false_eq_true, List.mem_flatten,
      List.mem_map]
    constructor
    · rintro ⟨m, ⟨c, hc, rfl⟩, ham⟩
      rcases mem_check_batch.mp ham with ⟨hs, hb⟩
      exact ⟨hs, subset_of_mem_chunksOf hc a hb⟩
    · rintro ⟨hs, hcs⟩
      rcases mem_chunksOf_of_mem (n := BATCH_SIZE) hcs with ⟨c, hc, hac⟩
      exact ⟨check_batch store c, ⟨c, hc, rfl⟩, mem_check_batch.mpr ⟨hs, hac⟩⟩

/- ### Claims -/

/-- C1: for every candidate list and every store, each candidate key that is
present verbatim in the store appears in the aggregated match result of
`check_addresses` at least once (completeness). -/
theorem check_addresses_complete (store cs : List Addr) (k : Addr)
    (hk : k ∈ cs) (hs : k ∈ store) :
    k ∈ check_addresses_core store cs :=
  mem_check_addresses_core.mpr ⟨hs, hk⟩

/-- Witness for C1 at a concrete store and candidate list. -/
theorem check_addresses_complete_witness :
    "a".data ∈ check_addresses_core ["x".data, "a".data] ["a".data, "b".data] :=
  check_addresses_complete ["x".data, "a".data] ["a".data, "b".data] "a".data
    (by decide) (by decide)

/-- C2: every element of the match result of `check_addresses` is a key
stored in the store's address column, and equals some candidate of its batch
(soundness). -/
theorem check_addresses_sound (store cs : List Addr) (x : Addr)
    (hx : x ∈ check_addresses_core store cs) :
    x ∈ store ∧ x ∈ cs :=
  mem_check_addresses_core.mp hx

/-- Witness for C2 at a concrete store and candidate list. -/
theorem check_addresses_sound_witness :
    "a".data ∈ ["x".data, "a".data] ∧ "a".data ∈ ["a".data, "b".data] :=
  check_addresses_sound ["x".data, "a".data] ["a".data, "b".data] "a".data
    (by decide)

/-- C3: the process exit code is exactly 1 when `check_addresses` succeeds
with a non-empty match set, exactly 0 when it succeeds with an empty match
set, and exactly 2 when any phase returns an error. -/
theorem exit_code_cases :
    (∀ found : List Addr, found ≠ [] → mainExitCode (Except.ok found) = 1) ∧
    mainExitCode (Except.ok []) = 0 ∧
    (∀ e : String, mainExitCode (Except.error e) = 2) := by
  refine ⟨?_, rfl, fun _ => rfl⟩
  intro found h
  simp [mainExitCode, h]

/-- Witness for C3 at concrete run results. -/
theorem exit_code_cases_witness :
    mainExitCode (Except.ok ["a".data]) = 1 ∧
    mainExitCode (Except.ok []) = 0 ∧
    mainExitCode (Except.error "no such file") = 2 :=
  ⟨exit_code_cases.1 ["a".data] (by decide), exit_code_cases.2.1,
    exit_code_cases.2.2 "no such file"⟩

/-- C4: the Candidate Loader produces exactly one candidate per non-blank
line — that line trimmed of surrounding whitespace — in file order, and every
candidate is non-empty; blank or whitespace-only lines are discarded. -/
theorem loader_per_nonblank_line (text : List Char) :
    loadCandidates text
        = ((rustLines text).map trimChars).filter (fun a => !a.isEmpty) ∧
    ∀ c ∈ loadCandidates text, c.isEmpty = false := by
  refine ⟨loadCandidates_eq text, ?_⟩
  intro c hc
  rw [loadCandidates_eq] at hc
  simpa using (List.mem_filter.mp hc).2

/-- Witness for C4 at a concrete file: one trimmed candidate per non-blank
line, the blank and whitespace-only lines discarded. -/
theorem loader_per_nonblank_line_witness :
    (loadCandidates " a \n\n  \nb".data
        = (((rustLines " a \n\n  \nb".data).map trimChars).filter
            (fun a => !a.isEmpty))) ∧
    ("a".data).isEmpty = false :=
  ⟨(loader_per_nonblank_line " a \n\n  \nb".data).1,
    (loader_per_nonblank_line " a \n\n  \nb".data).2 "a".data (by decide)⟩

/-- C5: the match result, viewed as an unordered set, is independent of the
batch split: for any partition of the candidate list into consecutive parts,
querying the parts and concatenating gives the same set of keys that
`check_addresses` itself produces (and, with the single part `[cs]`, the same
set as one batch of size `N`). -/
theorem batching_transparent (store cs : List Addr) (parts : List (List Addr))
    (h : parts.flatten = cs) (x : Addr) :
    x ∈ (parts.map (check_batch store)).flatten
      ↔ x ∈ check_addresses_core store cs := by
  rw [mem_check_addresses_core]
  constructor
  · intro hx
    rcases List.mem_flatten.mp hx with ⟨m, hm, hxm⟩
    rcases List.mem_map.mp hm with ⟨c, hc, rfl⟩
    rcases mem_check_batch.mp hxm with ⟨hs, hb⟩
    exact ⟨hs, h ▸ List.mem_flatten.mpr ⟨c, hc, hb⟩⟩
  · rintro ⟨hs, hcs⟩
    rw [← h] at hcs
    rcases List.mem_flatten.mp hcs with ⟨c, hc, hxc⟩
    exact List.mem_flatten.mpr
      ⟨check_batch store c, List.mem_map.mpr ⟨c, hc, rfl⟩,
        mem_check_batch.mpr ⟨hs, hxc⟩⟩

/-- Witness for C5: splitting two candidates into two singleton batches
matches the program's own batching on the same list. -/
theorem batching_transparent_witness :
    "a".data ∈ ([["a".data], ["b".data]].map (check_batch ["a".data])).flatten
      ↔ "a".data ∈ check_addresses_core ["a".data] ["a".data, "b".data] :=
  batching_transparent ["a".data] ["a".data, "b".data]
    [["a".data], ["b".data]] (by decide) "a".data

/-- C6: when every line of the candidate file is blank or whitespace-only
(in particular when the file is empty), the match set is empty, the exit
code is 0, and no membership queries are issued against the store. -/
theorem empty_candidates_run (store : List Addr) (text : List Char)
    (h : ∀ l ∈ rustLines text, (trimChars l).isEmpty = true) :
    check_addresses store text = [] ∧
    mainExitCode (Except.ok (check_addresses store text)) = 0 ∧
    (runTrace store text).countP isQueryEvent = 0 := by
  have hload : loadCandidates text = [] := by
    rw [loadCandidates_eq]
    rw [List.filter_eq_nil_iff]
    intro a ha
    rcases List.mem_map.mp ha with ⟨l, hl, rfl⟩
    simp [h l hl]
  refine ⟨?_, ?_, ?_⟩
  · rw [check_addresses, hload]
    rfl
  · rw [check_addresses, hload]
    rfl
  · rw [runTrace]
    simp [hload, isQueryEvent, connEvent]

/-- Witness for C6 at a concrete all-blank candidate file. -/
theorem empty_candidates_run_witness :
    check_addresses ["a".data] "\n  \n\t\n".data = [] ∧
    mainExitCode (Except.ok (check_addresses ["a".data] "\n  \n\t\n".data)) = 0 ∧
    (runTrace ["a".data] "\n  \n\t\n".data).countP isQueryEvent = 0 :=
  empty_candidates_run ["a".data] "\n  \n\t\n".data (by decide)

set_option maxRecDepth 100000 in
/-- C7: within one batch a stored key that matches appears in the batch's
result exactly once, however many duplicate copies of it the batch's
candidates hold (the store being a key set, i.e. duplicate-free); but the
same key matching in two different batches can appear twice in the
aggregated result — witnessed by 1001 copies of one candidate, split by the
program into batches of 1000 and 1. -/
theorem batch_match_once_cross_batch_may_repeat :
    (∀ (store batch : List Addr) (k : Addr), store.Nodup → k ∈ store →
        k ∈ batch → (check_batch store batch).count k = 1) ∧
    (∃ (store cs : List Addr) (k : Addr), 2 ≤ cs.count k ∧
        (check_addresses_core store cs).count k = 2) := by
  constructor
  · intro store batch k hnd hks hkb
    exact count_eq_one_of_nodup_mem (List.Nodup.filter _ hnd)
      (mem_check_batch.mpr ⟨hks, hkb⟩)
  · refine ⟨[['k']], List.replicate 1001 ['k'], ['k'], ?_, by decide⟩
    rw [List.count_replicate_self]
    omega

/-- Witness for C7: a batch holding the same matching candidate twice still
yields it once. -/
theorem batch_match_once_witness :
    (check_batch ["a".data] ["a".data, "a".data]).count "a".data = 1 :=
  batch_match_once_cross_batch_may_repeat.1 ["a".data] ["a".data, "a".data]
    "a".data (by decide) (by decide) (by decide)

/-- C8: for a non-empty candidate list, the chunks are consecutive, of size
at most `BATCH_SIZE` each, every chunk but possibly the last of size exactly
`BATCH_SIZE`, their concatenation is the candidate list, and the final result
is the concatenation in batch order of the per-batch match lists, without
deduplication. -/
theorem batching_partition (store cs : List Addr) (h : cs ≠ []) :
    (chunksOf BATCH_SIZE cs).flatten = cs ∧
    (∀ c ∈ chunksOf BATCH_SIZE cs, c.length ≤ BATCH_SIZE) ∧
    (∀ c ∈ (chunksOf BATCH_SIZE cs).dropLast, c.length = BATCH_SIZE) ∧
    check_addresses_core store cs
      = ((chunksOf BATCH_SIZE cs).map (check_batch store)).flatten := by
  have hne : cs.isEmpty = false := by
    simpa [List.isEmpty_iff] using h
  refine ⟨chunksOf_join _ _, chunksOf_length_le (by decide),
    chunksOf_dropLast_length (by decide), ?_⟩
  rw [check_addresses_core, hne]
  simp

/-- Witness for C8 at a concrete one-candidate list. -/
theorem batching_partition_witness :
    (chunksOf BATCH_SIZE ["a".data]).flatten = ["a".data] ∧
    (∀ c ∈ chunksOf BATCH_SIZE ["a".data], c.length ≤ BATCH_SIZE) ∧
    (∀ c ∈ (chunksOf BATCH_SIZE ["a".data]).dropLast, c.length = BATCH_SIZE) ∧
    check_addresses_core [] ["a".data]
      = ((chunksOf BATCH_SIZE ["a".data]).map (check_batch [])).flatten :=
  batching_partition [] ["a".data] (by decide)

/-- C9 counterexample: the claim that no store-connection activity precedes
the reading of the candidate file is false at a concrete run — in the trace
the connection is opened (position 0) before the candidate file is opened
(position 3), since main.rs opens and tunes the connection on lines 39–57
and only then opens the file on line 60. -/
theorem conn_activity_precedes_file_read :
    ¬ (∀ (i j : Nat) (ei ej : Event), (runTrace [] [])[i]? = some ei →
        (runTrace [] [])[j]? = some ej →
        connEvent ei = true → fileEvent ej = true → j < i) := by
  intro h
  have h03 := h 0 3 Event.openConn Event.openFile (by decide) (by decide)
    (by decide) (by decide)
  omega

/-- C9 as amended: the candidate list is fully read and materialized before
any membership query is issued against the store — every query event in the
trace is preceded by the line-reading event — although the store connection
is opened and configured before the candidate file is read. -/
theorem queries_follow_full_read (store : List Addr) (text : List Char)
    (i : Nat) (e : Event) (he : (runTrace store text)[i]? = some e)
    (hq : isQueryEvent e = true) :
    ∃ j, j < i ∧ (runTrace store text)[j]? = some Event.readLines := by
  obtain ⟨qs, ht⟩ : ∃ qs, runTrace store text
      = Event.openConn :: Event.busyTimeout :: Event.pragmas ::
        Event.openFile :: Event.readLines :: qs := ⟨_, rfl⟩
  rw [ht] at he
  match i, he with
  | 0, he =>
      have hee : some Event.openConn = some e := he
      obtain rfl := Option.some.inj hee
      simp [isQueryEvent] at hq
  | 1, he =>
      have hee : some Event.busyTimeout = some e := he
      obtain rfl := Option.some.inj hee
      simp [isQueryEvent] at hq
  | 2, he =>
      have hee : some Event.pragmas = some e := he
      obtain rfl := Option.some.inj hee
      simp [isQueryEvent] at hq
  | 3, he =>
      have hee : some Event.openFile = some e := he
      obtain rfl := Option.some.inj hee
      simp [isQueryEvent] at hq
  | 4, he =>
      have h4 : (Event.openConn :: Event.busyTimeout :: Event.pragmas ::
          Event.openFile :: Event.readLines :: qs)[4]?
            = some Event.readLines := by simp
      rw [h4] at he
      obtain rfl := Option.some.inj he
      simp [isQueryEvent] at hq
  | (m + 5), he =>
      refine ⟨4, by omega, ?_⟩
      rw [ht]
      simp

/-- Witness for C9's amended claim at a concrete run with one query. -/
theorem queries_follow_full_read_witness :
    ∃ j, j < 5 ∧ (runTrace ["a".data] "a".data)[j]? = some Event.readLines :=
  queries_follow_full_read ["a".data] "a".data 5
    (Event.query ["a".data]) (by decide) (by decide)

/-- C10: the run's behaviour is a function only of the first and second
positional arguments — two argument vectors agreeing on positions 1 and 2
give identical outcomes, so arguments beyond the second positional are
silently ignored — and each path falls back to its default when the argument
is absent. -/
theorem later_args_ignored (stores : String → List Addr)
    (files : String → List Char) (args args' : List String)
    (h1 : args[1]? = args'[1]?) (h2 : args[2]? = args'[2]?) :
    runOutcome stores files args = runOutcome stores files args' ∧
    (args[1]? = none → dbPathOf args = DEFAULT_DB_PATH) ∧
    (args[2]? = none → txtPathOf args = DEFAULT_TXT_PATH) := by
  refine ⟨?_, ?_, ?_⟩
  · rw [runOutcome, runOutcome, dbPathOf, dbPathOf, txtPathOf, txtPathOf,
      h1, h2]
  · intro h
    rw [dbPathOf, h]
    rfl
  · intro h
    rw [txtPathOf, h]
    rfl

/-- Witness for C10: two invocations differing only in a third positional
argument behave identically, and a one-element argument vector (program name
only) uses both defaults. -/
theorem later_args_ignored_witness :
    runOutcome (fun _ => []) (fun _ => []) ["tool", "db", "txt", "extra1"]
      = runOutcome (fun _ => []) (fun _ => []) ["tool", "db", "txt", "extra2"] ∧
    (["tool", "db", "txt", "extra1"][1]? = none →
      dbPathOf ["tool", "db", "txt", "extra1"] = DEFAULT_DB_PATH) ∧
    (["tool", "db", "txt", "extra1"][2]? = none →
      txtPathOf ["tool", "db", "txt", "extra1"] = DEFAULT_TXT_PATH) :=
  later_args_ignored (fun _ => []) (fun _ => [])
    ["tool", "db", "txt", "extra1"] ["tool", "db", "txt", "extra2"]
    (by decide) (by decide)
